import Mathlib

/-!
Shallow embedding of three DGL CPU primitives and proofs about them:

* `src/random/cpu/choice.cc` — `RandomEngine::UniformChoice` and the weighted
  `RandomEngine::Choice`, including the file-global `cache_` keyed by a string
  built from `(num, population, replace, *out)`;
* `src/array/cpu/coo_sort.cc` — `COOSort_` and `COOIsSorted`;
* `src/array/cpu/array_utils.h` — `IdHashMap`.

Machine integers (`int32_t`/`int64_t` `IdxType`/`IdType`) are embedded as
`Nat`/`Int`; none of the verified scenarios approach the width bounds, so no
wrap-around modelling is needed.  Output buffers are `List Nat`/`List Int`
indexed from zero.  Fallible paths (`CHECK_LE`) are `Except Unit`.
-/

/-! ### Random engine state

`RandomEngine::RandInt(n)` (external to the three files) returns a uniform
draw in `[0, n)`.  We model the random source as an infinite stream of
naturals together with a cursor; a draw takes the next stream value reduced
`mod n`, so every possible sequence of in-range values is representable.

The file-global `cache_` of `choice.cc` (a `std::map` from the stringified
`std::hash` of the key string to the previously drawn set) is part of the
mutable world, so it lives in the same state record.  The key is modelled by
the pre-hash key string itself: `std::hash` is a function, hence equal key
strings always produce equal cache keys, which is the only fact the theorems
below use. -/
structure Engine where
  cache : List (String × List Nat)
  stream : Nat → Nat
  pos : Nat

/-- One draw of `RandInt(n)`: next stream value reduced into `[0, n)`. -/
def randInt (eng : Engine) (n : Nat) : Nat × Engine :=
  (eng.stream eng.pos % n, { eng with pos := eng.pos + 1 })

/-- Association-list lookup for the cache (`cache_.find(hash_key1)`). -/
def lookupCache : List (String × List Nat) → String → Option (List Nat)
  | [], _ => none
  | p :: ps, k => if p.1 = k then some p.2 else lookupCache ps k

/-- `phmap::flat_hash_set::insert`: no-op if the element is present.  The set
is modelled as a duplicate-free list; the copy `std::copy(selected.begin(),
selected.end(), out)` then reads it in list order.  The real hash set has an
implementation-defined iteration order; every theorem below only exercises
sets of size at most one, for which all orders coincide. -/
def insertSel (s : List Nat) (x : Nat) : List Nat :=
  if x ∈ s then s else s ++ [x]

/-- The `while (selected.size() < num) selected.insert(RandInt(population));`
loop of `UniformChoice`.  The C++ loop has no bound; `fuel` bounds the number
of iterations in the model and `none` marks fuel exhaustion (a model
artifact, never reached in the theorems below). -/
def sampleLoop (num population : Nat) : Nat → List Nat → Engine → Option (List Nat × Engine)
  | 0, s, eng => if s.length < num then none else some (s, eng)
  | fuel + 1, s, eng =>
    if s.length < num then
      let (v, eng1) := randInt eng population
      sampleLoop num population fuel (insertSel s v) eng1
    else some (s, eng)

/-- The `replace = true` branch: `for (i = 0; i < num; ++i) out[i] = RandInt(population);`. -/
def fillReplace (num population : Nat) (out : List Nat) (eng : Engine) : List Nat × Engine :=
  (List.range num).foldl
    (fun acc i =>
      let (v, e) := randInt acc.2 population
      (acc.1.set i v, e)) (out, eng)

/-- The loop `for (i = num; i < population; ++i) { j = RandInt(i+1); if (j < num) out[j] = i; }`
of the reservoir branch, over an explicit candidate list. -/
def reservoirLoop (num : Nat) (is : List Nat) (out : List Nat) (eng : Engine) :
    List Nat × Engine :=
  is.foldl
    (fun acc i =>
      let (j, e) := randInt acc.2 (i + 1)
      (if j < num then acc.1.set j i else acc.1, e)) (out, eng)

/-- The cache key string: `"" + to_string(num) + to_string(population) +
to_string(replace) + to_string(*out)` (lines 85-88 of `choice.cc`).
`std::to_string` of a `bool` prints `0`/`1`; `*out` is the first element of
the output buffer as passed in. -/
def hashKey (num population : Nat) (replace : Bool) (out0 : Nat) : String :=
  toString num ++ toString population ++ (if replace then "1" else "0") ++ toString out0

/-- `RandomEngine::UniformChoice(num, population, out, replace)` from
`choice.cc` lines 68-115, including the global-cache path of the hash-set
branch.  `.error ()` is the `CHECK_LE(num, population)` failure (raised
before any write to `out`); on success the updated buffer and world state are
returned.  `fuel` bounds the unbounded rejection loop (see `sampleLoop`). -/
def RandomEngine.UniformChoice (fuel num population : Nat) (out : List Nat)
    (replace : Bool) (eng : Engine) : Except Unit (Option (List Nat × Engine)) :=
  if !replace && decide (population < num) then .error ()
  else if replace then .ok (some (fillReplace num population out eng))
  else if num < population / 10 then
    let key := hashKey num population replace (out.headD 0)
    match lookupCache eng.cache key with
    | none =>
      match sampleLoop num population fuel [] eng with
      | none => .ok none
      | some (selected, eng1) =>
        .ok (some (selected ++ out.drop selected.length,
          { eng1 with cache := eng1.cache ++ [(key, selected)] }))
    | some selected => .ok (some (selected ++ out.drop selected.length, eng))
  else
    .ok (some (reservoirLoop num (List.range' num (population - num))
      (List.range num ++ out.drop num) eng))

/-- `RandomEngine::Choice(num, prob, out, replace)` from `choice.cc` lines
40-57.  `N = prob->shape[0]`.

Modelled from the spec: `utils::TreeSampler` (declared in `sample_utils.h`,
which is not part of the provided sources) is the tree-structured
cumulative-weight sampler; it is abstracted as `draw i`, the value of its
`i`-th `Draw()` call.  Everything else follows the source: the precondition
check, then (when `num == N && !replace`) `std::iota(out, out + num, 0)`,
then — with no early return in the source — the loop
`for (i = 0; i < num; ++i) out[i] = sampler->Draw();`. -/
def RandomEngine.Choice (num N : Nat) (draw : Nat → Nat) (out : List Nat)
    (replace : Bool) : Except Unit (List Nat) :=
  if !replace && decide (N < num) then .error ()
  else
    let out1 := if num == N && !replace then List.range num ++ out.drop num else out
    .ok ((List.range num).foldl (fun o i => o.set i (draw i)) out1)

/-- Output-buffer projection of a `UniformChoice` result. -/
def outOf (r : Except Unit (Option (List Nat × Engine))) : Option (List Nat) :=
  match r with
  | .ok (some (o, _)) => some o
  | _ => none

/-- Cache projection of a `UniformChoice` result. -/
def cacheOf (r : Except Unit (Option (List Nat × Engine))) :
    Option (List (String × List Nat)) :=
  match r with
  | .ok (some (_, e)) => some e.cache
  | _ => none

/-- An engine with a given cache and a constant random stream. -/
def engC (cache : List (String × List Nat)) (v : Nat) : Engine :=
  ⟨cache, fun _ => v, 0⟩

/-! ### Claim-side reservoir description (C9)

`reservoirSpecGo num i left out eng` processes the `left` candidates
`i, i+1, …, i+left-1`: draw `j` uniform in `[0, i]`, and if `j < num`
overwrite `out[j]` with `i`.  `reservoirSpec` initialises `out[0..num-1]`
with `0..num-1` and processes candidates `num` to `population - 1`.  This is
written from the spec sentence, to be compared with the source branch. -/
def reservoirSpecGo (num : Nat) : Nat → Nat → List Nat → Engine → List Nat × Engine
  | _, 0, out, eng => (out, eng)
  | i, left + 1, out, eng =>
    let (j, e) := randInt eng (i + 1)
    reservoirSpecGo num (i + 1) left (if j < num then out.set j i else out) e

/-- Claim-side description of the whole at-or-above-threshold algorithm. -/
def reservoirSpec (num population : Nat) (out : List Nat) (eng : Engine) :
    List Nat × Engine :=
  reservoirSpecGo num num (population - num) (List.range num ++ out.drop num) eng

lemma reservoirLoop_eq_go (num : Nat) (left : Nat) :
    ∀ (i : Nat) (out : List Nat) (eng : Engine),
      reservoirLoop num (List.range' i left) out eng = reservoirSpecGo num i left out eng := by
  induction left with
  | zero => intro i out eng; rfl
  | succ n ih =>
    intro i out eng
    rw [List.range'_succ]
    show reservoirLoop num (List.range' (i + 1) n) _ _ = _
    rw [ih]
    rfl

/-! ### Claims about the sampling code -/

/-- C1: the claim states that `UniformChoice` draws a fresh sample on every
call, with the output depending only on `(num, population, replace)` and the
random source.  The code violates this: the hash-set branch consults the
file-global `cache_`.  Below, two calls with identical arguments, identical
prior `out` contents and identical random sources produce different outputs
because one engine carries the cache entry left by a prior call (which had
drawn `7`): the cached call returns `[7]`, ignoring its own random source
which would yield `[5]`.  A further conjunct shows the output also depends on
the prior contents of the `out` buffer (`[1]` instead of `[0]` changes the
key, misses the cache, and yields the fresh `[5]`). -/
theorem uniformChoice_cache_ignores_random_source :
    outOf (RandomEngine.UniformChoice 2 1 100 [0] false (engC [] 7)) = some [7]
  ∧ cacheOf (RandomEngine.UniformChoice 2 1 100 [0] false (engC [] 7)) =
      some [("110000", [7])]
  ∧ outOf (RandomEngine.UniformChoice 2 1 100 [0] false (engC [("110000", [7])] 5)) =
      some [7]
  ∧ outOf (RandomEngine.UniformChoice 2 1 100 [0] false (engC [] 5)) = some [5]
  ∧ outOf (RandomEngine.UniformChoice 2 1 100 [1] false (engC [("110000", [7])] 5)) =
      some [5]
  ∧ (some [7] : Option (List Nat)) ≠ some [5] := by
  refine ⟨by decide, by decide, by decide, by decide, by decide, by decide⟩

/-- C2: the claim states that every `UniformChoice(num, population, out,
replace = false)` call with `num ≤ population` leaves exactly `num` pairwise
distinct indices in `out`.  The code violates this through a cache-key
collision: the key concatenates the decimal digits of `num` and `population`
without a separator, so a first call with `num = 1, population = 2345`
(drawing `{7}`) and a second call with `num = 12, population = 345` build the
same key string `"1234500"`.  The second call (with `12 ≤ 345`) hits the
stale entry, copies the single cached element over `out[0]`, and leaves the
buffer `[7, 0, …, 0]`, which is not 12 pairwise-distinct indices. -/
theorem uniformChoice_cache_collision_breaks_distinctness :
    cacheOf (RandomEngine.UniformChoice 2 1 2345 [0] false (engC [] 7)) =
      some [("1234500", [7])]
  ∧ hashKey 12 345 false 0 = "1234500"
  ∧ outOf (RandomEngine.UniformChoice 2 12 345 (List.replicate 12 0) false
      (engC [("1234500", [7])] 3)) = some (7 :: List.replicate 11 0)
  ∧ ¬ (7 :: List.replicate 11 0).Nodup
  ∧ 12 ≤ 345 := by
  refine ⟨by decide, by decide, by decide, by decide, by decide⟩

/-- C3: the claim states that a weighted `Choice` with `replace = false` and
`num = N` returns the identity permutation without invoking the general
sampler.  The source does execute `std::iota(out, out + num, 0)` in this
case, but lacks an early return: it then constructs the `TreeSampler` and
overwrites `out[i]` with `sampler->Draw()` for every `i`.  With `N = 2`,
weights `[1, 1]` and a sampler whose first draw is `1` (probability one half
for the spec's weighted sampler), the call returns `[1, 0]`, not the
identity `[0, 1]`. -/
theorem choice_full_draw_overwrites_identity :
    RandomEngine.Choice 2 2 (fun i => if i = 0 then 1 else 0) [9, 9] false = .ok [1, 0]
  ∧ ([1, 0] : List Nat) ≠ [0, 1] := by
  exact ⟨by rfl, by decide⟩

/-- C4: with `replace = false` and `num > population` (resp. `num > N`), both
`UniformChoice` and the weighted `Choice` fail the `CHECK_LE` precondition
check, which precedes every write to `out`: the call reports the
invalid-argument error and produces no output. -/
theorem choice_precondition_error (fuel num population : Nat) (out : List Nat)
    (eng : Engine) (draw : Nat → Nat) (h : population < num) :
    RandomEngine.UniformChoice fuel num population out false eng = .error ()
  ∧ RandomEngine.Choice num population draw out false = .error () := by
  constructor
  · simp [RandomEngine.UniformChoice, h]
  · simp [RandomEngine.Choice, h]

/-- C4 witness: `num = 3 > 2 = population` is rejected by both samplers. -/
theorem choice_precondition_error_witness :
    RandomEngine.UniformChoice 0 3 2 [] false (engC [] 0) = .error ()
  ∧ RandomEngine.Choice 3 2 (fun _ => 0) [] false = .error () :=
  choice_precondition_error 0 3 2 [] (engC [] 0) (fun _ => 0) (by decide)

/-- C9: in the without-replacement branch at or above the ratio threshold
(`¬ (num < population / 10)`), `UniformChoice` computes its output exactly by
the claimed steps: initialise `out[0..num-1]` with `0..num-1`, then for each
candidate `i` from `num` to `population - 1` draw `j` uniform in `[0, i]`
and, if `j < num`, overwrite `out[j]` with `i` (`reservoirSpec` is written
from the claim's words). -/
theorem uniformChoice_reservoir_spec (fuel num population : Nat) (out : List Nat)
    (eng : Engine) (h1 : num ≤ population) (h2 : population / 10 ≤ num) :
    RandomEngine.UniformChoice fuel num population out false eng =
      .ok (some (reservoirSpec num population out eng)) := by
  have hnl : ¬ population < num := Nat.not_lt.mpr h1
  have hnb : ¬ num < population / 10 := Nat.not_lt.mpr h2
  simp [RandomEngine.UniformChoice, hnl, hnb, reservoirSpec, reservoirLoop_eq_go]

/-- C9 witness: `num = 2, population = 10` lies at the threshold
(`10 / 10 = 1 ≤ 2`), and the branch result equals the claim-side
computation. -/
theorem uniformChoice_reservoir_spec_witness :
    RandomEngine.UniformChoice 0 2 10 [5, 5, 5] false (engC [] 3) =
      .ok (some (reservoirSpec 2 10 [5, 5, 5] (engC [] 3))) :=
  uniformChoice_reservoir_spec 0 2 10 [5, 5, 5] (engC [] 3) (by decide) (by decide)

/-! ### Coordinate matrix sorting (`coo_sort.cc`)

A `COOMatrix` owns the three parallel arrays and the two sortedness flags.
`COOSort_` (lines 211-250) synthesizes `data = Range(0, nnz)` when absent,
then runs `std::sort` over `CooIterator`, whose `TupleRef` proxy compares,
swaps and assigns the triple `(row[i], col[i], data[i])` as one record; the
arrays are therefore one list of triples here.  `std::sort` guarantees a
permutation of the input that is sorted for the strict weak order given by
the comparator, with ties in unspecified relative order; it is modelled by
`List.insertionSort` over the reflexive total closure `¬ cmp b a` of the
comparator, one valid such permutation (the properties proved below —
sortedness, flag updates, multiset preservation — hold for every valid
permutation, and the concrete C10 input has pairwise distinct keys, making
the sorted result unique). -/
structure COOMatrix where
  row : List Int
  col : List Int
  data : Option (List Int)
  row_sorted : Bool
  col_sorted : Bool
deriving DecidableEq

/-- `COOHasData`: whether the payload array is present. -/
def COOHasData (m : COOMatrix) : Bool := m.data.isSome

/-- `aten::Range(0, nnz)`: the payload synthesized when `!COOHasData(*coo)`. -/
def rangeData (nnz : Nat) : List Int := (List.range nnz).map Int.ofNat

/-- Reflexive total closure of the `sort_column` comparator
`(a0 != b0) ? a0 < b0 : a1 < b1` (lines 231-234): `¬ cmp b a`. -/
def cooLexLe (a b : Int × Int × Int) : Prop :=
  a.1 < b.1 ∨ (a.1 = b.1 ∧ a.2.1 ≤ b.2.1)

/-- Reflexive total closure of the row-only comparator `a0 < b0` (line 244). -/
def cooRowLe (a b : Int × Int × Int) : Prop := a.1 ≤ b.1

instance : DecidableRel cooLexLe := fun a b => by unfold cooLexLe; infer_instance

instance : DecidableRel cooRowLe := fun a b => by unfold cooRowLe; infer_instance

instance : IsTotal (Int × Int × Int) cooLexLe := by
  constructor; intro a b; unfold cooLexLe; omega

instance : IsTrans (Int × Int × Int) cooLexLe := by
  constructor; intro a b c; unfold cooLexLe; omega

instance : IsTotal (Int × Int × Int) cooRowLe := by
  constructor; intro a b; unfold cooRowLe; omega

instance : IsTrans (Int × Int × Int) cooRowLe := by
  constructor; intro a b c; unfold cooRowLe; omega

/-- The `(row[i], col[i], data[i])` records, with the payload synthesized as
`Range(0, nnz)` when absent — exactly what `COOSort_` sorts. -/
def cooTriples (m : COOMatrix) : List (Int × Int × Int) :=
  m.row.zip (m.col.zip (m.data.getD (rangeData m.row.length)))

/-- `COOSort_(coo, sort_column)` from `coo_sort.cc` lines 211-250: sort the
triples by the selected comparator, write the three projections back, and set
`row_sorted = true`, `col_sorted = sort_column`. -/
def COOSort_ (m : COOMatrix) (sort_column : Bool) : COOMatrix :=
  let t := cooTriples m
  let sorted := if sort_column then List.insertionSort cooLexLe t
                else List.insertionSort cooRowLe t
  { row := sorted.map (fun x => x.1),
    col := sorted.map (fun x => x.2.1),
    data := some (sorted.map (fun x => x.2.2)),
    row_sorted := true,
    col_sorted := sort_column }

/-- The loop of `COOIsSorted` (lines 263-271) on the tails, carrying the
previous row and column values.  Iteration `i` runs only while `row_sorted`
still holds; when `row[i-1] <= row[i]` fails the loop stops and the final
`if (!row_sorted) col_sorted = false;` forces both flags false. -/
def COOIsSortedAux : Int → Int → List Int → List Int → Bool × Bool
  | _, _, [], _ => (true, true)
  | _, _, _ :: _, [] => (true, true)
  | pr, pc, r :: rs, c :: cs =>
    if pr ≤ r then
      let rest := COOIsSortedAux r c rs cs
      (rest.1, ((decide (pr < r)) || (decide (pc ≤ c))) && rest.2)
    else (false, false)

/-- `COOIsSorted(coo)` from `coo_sort.cc` lines 258-272. -/
def COOIsSorted (m : COOMatrix) : Bool × Bool :=
  match m.row, m.col with
  | r :: rs, c :: cs => COOIsSortedAux r c rs cs
  | _, _ => (true, true)

/-- Claim-side predicate: the row array is non-decreasing. -/
def rowsNondecreasing (row : List Int) : Prop :=
  List.Chain' (fun a b => a ≤ b) row

/-- Claim-side predicate: within every maximal run of equal row values the
column values are non-decreasing — equivalently, every adjacent pair with
equal rows has non-decreasing columns. -/
def colsNondecreasingWithinRows (row col : List Int) : Prop :=
  List.Chain' (fun p q => p.1 = q.1 → p.2 ≤ q.2) (row.zip col)

lemma cooIsSortedAux_spec (rs : List Int) :
    ∀ (pr pc : Int) (cs : List Int), rs.length = cs.length →
    ((COOIsSortedAux pr pc rs cs).1 = true ↔
        List.Chain' (fun a b => a ≤ b) (pr :: rs))
  ∧ ((COOIsSortedAux pr pc rs cs).2 = true ↔
      (List.Chain' (fun a b => a ≤ b) (pr :: rs)
        ∧ List.Chain' (fun p q : Int × Int => p.1 = q.1 → p.2 ≤ q.2)
            ((pr, pc) :: rs.zip cs))) := by
  induction rs with
  | nil =>
    intro pr pc cs h
    simp [COOIsSortedAux]
  | cons r rs ih =>
    intro pr pc cs h
    cases cs with
    | nil => simp at h
    | cons c cs =>
      simp only [List.length_cons, Nat.succ.injEq] at h
      obtain ⟨ih1, ih2⟩ := ih r c cs h
      by_cases hle : pr ≤ r
      · constructor
        · simp only [COOIsSortedAux, if_pos hle, List.chain'_cons, ih1]
          tauto
        · simp only [COOIsSortedAux, if_pos hle, List.zip_cons_cons, List.chain'_cons,
            Bool.and_eq_true, Bool.or_eq_true, decide_eq_true_eq, ih2, ih1]
          constructor
          · rintro ⟨hjc, hrs, hcol⟩
            refine ⟨⟨hle, hrs⟩, ?_, hcol⟩
            intro he
            rcases hjc with h1 | h2
            · omega
            · exact h2
          · rintro ⟨⟨_, hrs⟩, hec, hcol⟩
            refine ⟨?_, hrs, hcol⟩
            by_cases he : pr = r
            · exact Or.inr (hec he)
            · exact Or.inl (by omega)
      · constructor
        · simp only [COOIsSortedAux, if_neg hle, List.chain'_cons]
          simp only [Bool.false_eq_true, false_iff]
          tauto
        · simp only [COOIsSortedAux, if_neg hle, List.chain'_cons]
          simp only [Bool.false_eq_true, false_iff]
          tauto

lemma cooIsSorted_spec (m : COOMatrix) (h : m.row.length = m.col.length) :
    ((COOIsSorted m).1 = true ↔ rowsNondecreasing m.row)
  ∧ ((COOIsSorted m).2 = true ↔
      (rowsNondecreasing m.row ∧ colsNondecreasingWithinRows m.row m.col)) := by
  unfold COOIsSorted rowsNondecreasing colsNondecreasingWithinRows
  rcases hr : m.row with _ | ⟨r, rs⟩
  · simp
  · rcases hc : m.col with _ | ⟨c, cs⟩
    · rw [hr, hc] at h; simp at h
    · rw [hr, hc] at h
      simp only [List.length_cons, Nat.succ.injEq] at h
      exact cooIsSortedAux_spec rs r c cs h

lemma cooSort_lengths (m : COOMatrix) (b : Bool) :
    (COOSort_ m b).row.length = (COOSort_ m b).col.length := by
  unfold COOSort_
  simp

lemma chain_lex_of_sorted (t : List (Int × Int × Int)) :
    List.Chain' cooLexLe (List.insertionSort cooLexLe t) :=
  (List.sorted_insertionSort cooLexLe t).chain'

lemma chain_row_of_sorted (t : List (Int × Int × Int)) :
    List.Chain' cooRowLe (List.insertionSort cooRowLe t) :=
  (List.sorted_insertionSort cooRowLe t).chain'

lemma rows_of_chain {r : (Int × Int × Int) → (Int × Int × Int) → Prop}
    (himp : ∀ a b, r a b → a.1 ≤ b.1) {l : List (Int × Int × Int)}
    (h : List.Chain' r l) : rowsNondecreasing (l.map (fun x => x.1)) := by
  unfold rowsNondecreasing
  rw [List.chain'_map]
  exact h.imp himp

lemma cols_of_chain {l : List (Int × Int × Int)}
    (h : List.Chain' cooLexLe l) :
    colsNondecreasingWithinRows (l.map (fun x => x.1)) (l.map (fun x => x.2.1)) := by
  unfold colsNondecreasingWithinRows
  rw [List.zip_map', List.chain'_map]
  refine h.imp ?_
  intro a b hab he
  unfold cooLexLe at hab
  simp only at he
  omega

/-- C5: after `COOSort_(matrix, true)` the row array is non-decreasing and
within every maximal run of equal rows the columns are non-decreasing, so
`COOIsSorted` returns `(true, true)`; after `COOSort_(matrix, false)` the row
array is non-decreasing; in both cases the flags are updated to
`row_sorted = true` and `col_sorted = sort_column`. -/
theorem cooSort_sorts_and_sets_flags (m : COOMatrix) :
    rowsNondecreasing (COOSort_ m true).row
  ∧ colsNondecreasingWithinRows (COOSort_ m true).row (COOSort_ m true).col
  ∧ COOIsSorted (COOSort_ m true) = (true, true)
  ∧ (COOSort_ m true).row_sorted = true ∧ (COOSort_ m true).col_sorted = true
  ∧ rowsNondecreasing (COOSort_ m false).row
  ∧ (COOIsSorted (COOSort_ m false)).1 = true
  ∧ (COOSort_ m false).row_sorted = true ∧ (COOSort_ m false).col_sorted = false := by
  have hrow1 : rowsNondecreasing (COOSort_ m true).row := by
    show rowsNondecreasing ((List.insertionSort cooLexLe (cooTriples m)).map (fun x => x.1))
    exact rows_of_chain (fun a b hab => by unfold cooLexLe at hab; omega)
      (chain_lex_of_sorted (cooTriples m))
  have hcol1 : colsNondecreasingWithinRows (COOSort_ m true).row (COOSort_ m true).col := by
    show colsNondecreasingWithinRows
      ((List.insertionSort cooLexLe (cooTriples m)).map (fun x => x.1))
      ((List.insertionSort cooLexLe (cooTriples m)).map (fun x => x.2.1))
    exact cols_of_chain (chain_lex_of_sorted (cooTriples m))
  have hrow2 : rowsNondecreasing (COOSort_ m false).row := by
    show rowsNondecreasing ((List.insertionSort cooRowLe (cooTriples m)).map (fun x => x.1))
    exact rows_of_chain (fun a b hab => hab) (chain_row_of_sorted (cooTriples m))
  have hs1 := cooIsSorted_spec (COOSort_ m true) (cooSort_lengths m true)
  have hs2 := cooIsSorted_spec (COOSort_ m false) (cooSort_lengths m false)
  refine ⟨hrow1, hcol1, ?_, rfl, rfl, hrow2, hs2.1.mpr hrow2, rfl, rfl⟩
  exact Prod.ext (hs1.1.mpr hrow1) (hs1.2.mpr ⟨hrow1, hcol1⟩)

/-- C6: for either value of `sort_column`, sorting permutes the
`(row[i], col[i], payload[i])` records by one common permutation — the
multiset of triples (with the payload synthesized as `0..nnz-1` when absent,
as the source does before sorting) is identical before and after
`COOSort_`. -/
theorem cooSort_preserves_triple_multiset (m : COOMatrix) (b : Bool) :
    List.Perm (cooTriples (COOSort_ m b)) (cooTriples m) := by
  have key : ∀ (s : List (Int × Int × Int)),
      (s.map (fun x => x.1)).zip ((s.map (fun x => x.2.1)).zip (s.map (fun x => x.2.2))) = s := by
    intro s
    rw [List.zip_map', List.zip_map']
    simp
  cases b
  · have heq : cooTriples (COOSort_ m false) =
        List.insertionSort cooRowLe (cooTriples m) := by
      show ((List.insertionSort cooRowLe (cooTriples m)).map (fun x => x.1)).zip
        (((List.insertionSort cooRowLe (cooTriples m)).map (fun x => x.2.1)).zip
          ((List.insertionSort cooRowLe (cooTriples m)).map (fun x => x.2.2))) = _
      exact key _
    rw [heq]
    exact List.perm_insertionSort cooRowLe _
  · have heq : cooTriples (COOSort_ m true) =
        List.insertionSort cooLexLe (cooTriples m) := by
      show ((List.insertionSort cooLexLe (cooTriples m)).map (fun x => x.1)).zip
        (((List.insertionSort cooLexLe (cooTriples m)).map (fun x => x.2.1)).zip
          ((List.insertionSort cooLexLe (cooTriples m)).map (fun x => x.2.2))) = _
      exact key _
    rw [heq]
    exact List.perm_insertionSort cooLexLe _

/-- C7: `COOIsSorted` returns `rowSorted = true` iff the row array is
non-decreasing; `colSorted = true` iff additionally the columns are
non-decreasing within every maximal run of equal rows; and whenever
`rowSorted` is false, `colSorted` is false. -/
theorem cooIsSorted_characterization (m : COOMatrix) (h : m.row.length = m.col.length) :
    ((COOIsSorted m).1 = true ↔ rowsNondecreasing m.row)
  ∧ ((COOIsSorted m).2 = true ↔
      (rowsNondecreasing m.row ∧ colsNondecreasingWithinRows m.row m.col))
  ∧ ((COOIsSorted m).1 = false → (COOIsSorted m).2 = false) := by
  obtain ⟨h1, h2⟩ := cooIsSorted_spec m h
  refine ⟨h1, h2, ?_⟩
  intro hf
  cases hb : (COOIsSorted m).2
  · rfl
  · have := (h2.mp hb).1
    rw [h1.mpr this] at hf
    exact absurd hf (by simp)

/-- C7 witness: a matrix with rows `[1, 0]`, cols `[0, 0]`; here both
components of `COOIsSorted` are false and the characterization applies. -/
theorem cooIsSorted_characterization_witness :
    ((COOIsSorted ⟨[1, 0], [0, 0], none, false, false⟩).1 = true ↔
        rowsNondecreasing ([1, 0] : List Int))
  ∧ ((COOIsSorted ⟨[1, 0], [0, 0], none, false, false⟩).2 = true ↔
      (rowsNondecreasing ([1, 0] : List Int)
        ∧ colsNondecreasingWithinRows ([1, 0] : List Int) ([0, 0] : List Int)))
  ∧ ((COOIsSorted ⟨[1, 0], [0, 0], none, false, false⟩).1 = false →
      (COOIsSorted ⟨[1, 0], [0, 0], none, false, false⟩).2 = false) :=
  cooIsSorted_characterization ⟨[1, 0], [0, 0], none, false, false⟩ rfl

/-- The C10 end-to-end example: rows `[2,0,1,0]`, cols `[1,3,0,1]`, payload
unset. -/
def exampleCOO : COOMatrix :=
  { row := [2, 0, 1, 0], col := [1, 3, 0, 1], data := none,
    row_sorted := false, col_sorted := false }

/-- C10 counterexample: the claim asserts the sorted payload is `[1,3,2,0]`,
but the record `(0, 1, 3)` — column `1`, original position `3` — sorts ahead
of `(0, 3, 1)`, so slots 0 and 1 of the payload hold `3` and `1`: the claimed
payload is impossible alongside the claimed column order `[1,3,0,1]`. -/
theorem cooSort_example_payload_counterexample :
    (COOSort_ exampleCOO true).data ≠ some ([1, 3, 2, 0] : List Int) := by decide

/-- C10 amended: `COOSort_(exampleCOO, true)` synthesizes payload `0..3` and
returns rows `[0,0,1,2]`, cols `[1,3,0,1]`, payload `[3,1,2,0]` (the original
positions), with flags `(true, true)`. -/
theorem cooSort_example_amended :
    COOSort_ exampleCOO true =
      { row := [0, 0, 1, 2], col := [1, 3, 0, 1], data := some [3, 1, 2, 0],
        row_sorted := true, col_sorted := true }
  ∧ COOIsSorted (COOSort_ exampleCOO true) = (true, true) :=
  ⟨by decide, by decide⟩

/-! ### Identifier compaction (`array_utils.h`, `IdHashMap`)

`oldv2newv_` is a `phmap::flat_hash_map<IdType, IdType>` whose `insert` never
overwrites an existing key, so each distinct id receives `oldv2newv_.size()`
at its first insertion; it is modelled as an association list in insertion
order, whose stored new ids are therefore `0, 1, 2, …` in order of first
appearance.  `Values()` writes `values_data[pair.second] = pair.first` over
all pairs, which is exactly the key list in insertion order, independent of
the hash map's iteration order.  The `filter_` bitmap of `kFilterSize = 2^24`
bits is modelled as a function `Nat → Bool`; `id & kFilterMask` on a
two's-complement `IdType` is `id mod 2^24`.  (Line 126 of the source carries
a stray `bsl::btree_set<` token glued to the evident statement
`IdArray values = NewIdArray(len, ids->ctx, ids->dtype.bits);`; the vectorized
`Map` is modelled from that statement and the loop that follows it.)
Identifiers are embedded as `Int` (the source instantiates `int32_t`/`int64_t`),
new ids as `Nat`. -/
structure IdHashMap where
  filter : Nat → Bool
  oldv2newv : List (Int × Nat)

/-- `kFilterMask = 0xFFFFFF` (line 147). -/
def kFilterMask : Nat := 0xFFFFFF

/-- `id & kFilterMask`: the low 24 bits of a two's-complement integer. -/
def maskIdx (id : Int) : Nat := (id.emod (Int.ofNat (kFilterMask + 1))).toNat

/-- `oldv2newv_.find(id)` on the association-list model. -/
def lookupKey : List (Int × Nat) → Int → Option Nat
  | [], _ => none
  | p :: ps, id => if p.1 = id then some p.2 else lookupKey ps id

/-- The default constructor: empty map, all filter bits clear. -/
def IdHashMap.empty : IdHashMap := ⟨fun _ => false, []⟩

/-- One iteration of the `Update` loop (lines 97-103):
`oldv2newv_.insert({id, oldv2newv_.size()}); filter_[id & kFilterMask] = true;`. -/
def IdHashMap.insert1 (m : IdHashMap) (id : Int) : IdHashMap :=
  { filter := fun n => if n = maskIdx id then true else m.filter n,
    oldv2newv :=
      match lookupKey m.oldv2newv id with
      | some _ => m.oldv2newv
      | none => m.oldv2newv ++ [(id, m.oldv2newv.length)] }

/-- `IdHashMap::Update(ids)` (lines 94-104). -/
def IdHashMap.Update (m : IdHashMap) (ids : List Int) : IdHashMap :=
  ids.foldl IdHashMap.insert1 m

/-- `IdHashMap::Map(id, default_val)` (lines 113-120): consult the filter,
then the table. -/
def IdHashMap.Map (m : IdHashMap) (id : Int) (default_val : Int) : Int :=
  if m.filter (maskIdx id) then
    match lookupKey m.oldv2newv id with
    | some v => Int.ofNat v
    | none => default_val
  else default_val

/-- `IdHashMap::Contains(id)` (lines 107-109). -/
def IdHashMap.Contains (m : IdHashMap) (id : Int) : Bool :=
  m.filter (maskIdx id) && (lookupKey m.oldv2newv id).isSome

/-- `IdHashMap::Values()` (lines 134-140): the old ids ordered by new id. -/
def IdHashMap.Values (m : IdHashMap) : List Int := m.oldv2newv.map Prod.fst

/-- `IdHashMap::Size()` (lines 142-144). -/
def IdHashMap.Size (m : IdHashMap) : Nat := m.oldv2newv.length

/-- Vectorized `IdHashMap::Map(ids, default_val)` (lines 123-131). -/
def IdHashMap.MapArr (m : IdHashMap) (ids : List Int) (default_val : Int) : List Int :=
  ids.map (fun x => m.Map x default_val)

/-- Claim-side step: append an identifier unless already seen. -/
def firstSeenStep (acc : List Int) (x : Int) : List Int :=
  if x ∈ acc then acc else acc ++ [x]

/-- Claim-side: the distinct identifiers of `xs` in order of first appearance. -/
def firstSeen (xs : List Int) : List Int := xs.foldl firstSeenStep []

/-- Claim-side: index of the first occurrence of `x` in a list. -/
def idxOfFirst : List Int → Int → Nat
  | [], _ => 0
  | y :: ys, x => if y = x then 0 else idxOfFirst ys x + 1

/-- The association list `[(ys[0], n), (ys[1], n+1), …]`. -/
def enumPairs : Nat → List Int → List (Int × Nat)
  | _, [] => []
  | n, y :: ys => (y, n) :: enumPairs (n + 1) ys

/-- Invariant: every key present in the table has its filter bit set (the
filter has no false negatives). -/
def coveredFilter (m : IdHashMap) : Prop :=
  ∀ id : Int, (lookupKey m.oldv2newv id).isSome = true → m.filter (maskIdx id) = true

lemma enumPairs_length (ys : List Int) : ∀ n, (enumPairs n ys).length = ys.length := by
  induction ys with
  | nil => intro n; rfl
  | cons y ys ih => intro n; simp [enumPairs, ih]

lemma enumPairs_map_fst (ys : List Int) : ∀ n, (enumPairs n ys).map Prod.fst = ys := by
  induction ys with
  | nil => intro n; rfl
  | cons y ys ih => intro n; simp [enumPairs, ih]

lemma enumPairs_append (ys : List Int) (x : Int) :
    ∀ n, enumPairs n (ys ++ [x]) = enumPairs n ys ++ [(x, n + ys.length)] := by
  induction ys with
  | nil => intro n; simp [enumPairs]
  | cons y ys ih =>
    intro n
    show (y, n) :: enumPairs (n + 1) (ys ++ [x]) =
      ((y, n) :: enumPairs (n + 1) ys) ++ [(x, n + (y :: ys).length)]
    rw [ih (n + 1)]
    have hn : n + 1 + ys.length = n + (ys.length + 1) := by omega
    simp [hn]

lemma lookupKey_enumPairs (ys : List Int) (x : Int) :
    ∀ n, lookupKey (enumPairs n ys) x =
      if x ∈ ys then some (n + idxOfFirst ys x) else none := by
  induction ys with
  | nil => intro n; simp [enumPairs, lookupKey]
  | cons y ys ih =>
    intro n
    by_cases he : y = x
    · subst he
      simp [enumPairs, lookupKey, idxOfFirst]
    · simp only [enumPairs, lookupKey, if_neg he, ih (n + 1), idxOfFirst]
      by_cases hm : x ∈ ys
      · have hxy : x ∈ y :: ys := List.mem_cons_of_mem y hm
        simp only [if_pos hm, if_pos hxy, if_neg he]
        congr 1
        omega
      · have hor : ¬ (x = y ∨ x ∈ ys) := by
          rintro (h1 | h2)
          · exact he h1.symm
          · exact hm h2
        simp [if_neg hm, hor]

lemma lookupKey_append (l1 l2 : List (Int × Nat)) (x : Int) :
    lookupKey (l1 ++ l2) x =
      match lookupKey l1 x with
      | some v => some v
      | none => lookupKey l2 x := by
  induction l1 with
  | nil => simp [lookupKey]
  | cons p ps ih =>
    by_cases he : p.1 = x
    · simp [lookupKey, if_pos he]
    · have h1 : lookupKey ((p :: ps) ++ l2) x = lookupKey (ps ++ l2) x := by
        simp [lookupKey, if_neg he]
      have h2 : lookupKey (p :: ps) x = lookupKey ps x := by
        simp [lookupKey, if_neg he]
      rw [h1, ih, h2]

lemma update_pairs (ids : List Int) :
    ∀ (m : IdHashMap) (ys : List Int), m.oldv2newv = enumPairs 0 ys →
      (m.Update ids).oldv2newv = enumPairs 0 (ids.foldl firstSeenStep ys) := by
  induction ids with
  | nil => intro m ys hm; exact hm
  | cons x ids ih =>
    intro m ys hm
    have hstep : (m.insert1 x).oldv2newv = enumPairs 0 (firstSeenStep ys x) := by
      show (match lookupKey m.oldv2newv x with
            | some _ => m.oldv2newv
            | none => m.oldv2newv ++ [(x, m.oldv2newv.length)]) = _
      rw [hm, lookupKey_enumPairs]
      unfold firstSeenStep
      by_cases hx : x ∈ ys
      · simp [hx]
      · simp only [if_neg hx]
        rw [enumPairs_length ys 0, enumPairs_append ys x 0]
        simp
    exact ih (m.insert1 x) (firstSeenStep ys x) hstep

lemma update_filter (ids : List Int) :
    ∀ (m : IdHashMap), coveredFilter m → coveredFilter (m.Update ids) := by
  induction ids with
  | nil => intro m hm; exact hm
  | cons x ids ih =>
    intro m hm
    refine ih (m.insert1 x) ?_
    intro id hid
    show (if maskIdx id = maskIdx x then true else m.filter (maskIdx id)) = true
    by_cases hmask : maskIdx id = maskIdx x
    · rw [if_pos hmask]
    · rw [if_neg hmask]
      apply hm
      revert hid
      show (lookupKey (match lookupKey m.oldv2newv x with
            | some _ => m.oldv2newv
            | none => m.oldv2newv ++ [(x, m.oldv2newv.length)]) id).isSome = true →
        (lookupKey m.oldv2newv id).isSome = true
      cases hl : lookupKey m.oldv2newv x with
      | some v => exact fun h => h
      | none =>
        rw [lookupKey_append]
        cases hl2 : lookupKey m.oldv2newv id with
        | some v => exact fun _ => rfl
        | none =>
          intro h
          exfalso
          have hne : id ≠ x := fun he => hmask (by rw [he])
          simp [lookupKey, if_neg (fun he : x = id => hne he.symm)] at h

lemma mem_foldl_firstSeenStep (xs : List Int) :
    ∀ (acc : List Int) (x : Int), x ∈ xs.foldl firstSeenStep acc ↔ x ∈ acc ∨ x ∈ xs := by
  induction xs with
  | nil => intro acc x; simp
  | cons y xs ih =>
    intro acc x
    show x ∈ xs.foldl firstSeenStep (firstSeenStep acc y) ↔ _
    rw [ih]
    unfold firstSeenStep
    by_cases hy : y ∈ acc
    · rw [if_pos hy]
      simp only [List.mem_cons]
      constructor
      · rintro (h | h)
        · exact Or.inl h
        · exact Or.inr (Or.inr h)
      · rintro (h | h | h)
        · exact Or.inl h
        · exact Or.inl (h ▸ hy)
        · exact Or.inr h
    · rw [if_neg hy]
      simp only [List.mem_append, List.mem_singleton, List.mem_cons]
      tauto

lemma nodup_foldl_firstSeenStep (xs : List Int) :
    ∀ (acc : List Int), acc.Nodup → (xs.foldl firstSeenStep acc).Nodup := by
  induction xs with
  | nil => intro acc h; exact h
  | cons y xs ih =>
    intro acc h
    refine ih (firstSeenStep acc y) ?_
    unfold firstSeenStep
    by_cases hy : y ∈ acc
    · rwa [if_pos hy]
    · rw [if_neg hy]
      simp [List.nodup_append, h, hy]

lemma firstSeen_nodup (xs : List Int) : (firstSeen xs).Nodup :=
  nodup_foldl_firstSeenStep xs [] List.nodup_nil

lemma mem_firstSeen (xs : List Int) (x : Int) : x ∈ firstSeen xs ↔ x ∈ xs := by
  unfold firstSeen
  rw [mem_foldl_firstSeenStep]
  simp

lemma idxOfFirst_getElem (ys : List Int) :
    ∀ (i : Nat) (h : i < ys.length), ys.Nodup → idxOfFirst ys ys[i] = i := by
  induction ys with
  | nil => intro i h; simp at h
  | cons y ys ih =>
    intro i h hnd
    obtain ⟨hy, hnd2⟩ := List.nodup_cons.mp hnd
    cases i with
    | zero => simp [idxOfFirst]
    | succ n =>
      have hlt : n < ys.length := by simpa using h
      have he : (y :: ys)[n + 1] = ys[n] := by simp
      rw [he]
      unfold idxOfFirst
      rw [if_neg, ih n hlt hnd2]
      intro hc
      exact hy (hc ▸ List.getElem_mem hlt)

lemma map_of_mem (M : IdHashMap) (ys : List Int)
    (hpairs : M.oldv2newv = enumPairs 0 ys) (hcov : coveredFilter M)
    (x : Int) (hx : x ∈ ys) (d : Int) : M.Map x d = Int.ofNat (idxOfFirst ys x) := by
  have hl : lookupKey M.oldv2newv x = some (idxOfFirst ys x) := by
    rw [hpairs, lookupKey_enumPairs ys x 0, if_pos hx]
    simp
  have hf : M.filter (maskIdx x) = true := hcov x (by rw [hl]; rfl)
  unfold IdHashMap.Map
  rw [if_pos hf, hl]

/-- C8: after `Update` from empty with any identifier array `xs` (duplicates
allowed), the compactor assigns each distinct identifier the next unused new
id in order of first appearance:  `Values()` is the first-appearance list,
its length is `Size()`, `Map(x, -1)` is the index of `x`'s first appearance
among the distinct identifiers for every `x` in the input,
`Map(Values()[i], -1) = i`, and the vectorized `Map` is the pointwise scalar
`Map`. -/
theorem idHashMap_compaction_roundtrip (xs ids : List Int) (d x : Int) (i : Nat)
    (hx : x ∈ xs) (hi : i < (IdHashMap.empty.Update xs).Values.length) :
    (IdHashMap.empty.Update xs).Values = firstSeen xs
  ∧ (IdHashMap.empty.Update xs).Values.length = (IdHashMap.empty.Update xs).Size
  ∧ (IdHashMap.empty.Update xs).Size = (firstSeen xs).length
  ∧ (IdHashMap.empty.Update xs).Map x (-1) = Int.ofNat (idxOfFirst (firstSeen xs) x)
  ∧ (IdHashMap.empty.Update xs).Map ((IdHashMap.empty.Update xs).Values.getD i 0) (-1)
      = Int.ofNat i
  ∧ (IdHashMap.empty.Update xs).MapArr ids d
      = ids.map (fun y => (IdHashMap.empty.Update xs).Map y d) := by
  have hpairs : (IdHashMap.empty.Update xs).oldv2newv = enumPairs 0 (firstSeen xs) :=
    update_pairs xs IdHashMap.empty [] rfl
  have hcov : coveredFilter (IdHashMap.empty.Update xs) := by
    refine update_filter xs IdHashMap.empty ?_
    intro id hid
    simp [IdHashMap.empty, lookupKey] at hid
  have hV : (IdHashMap.empty.Update xs).Values = firstSeen xs := by
    unfold IdHashMap.Values
    rw [hpairs, enumPairs_map_fst (firstSeen xs) 0]
  have hS : (IdHashMap.empty.Update xs).Size = (firstSeen xs).length := by
    unfold IdHashMap.Size
    rw [hpairs, enumPairs_length (firstSeen xs) 0]
  have hiF : i < (firstSeen xs).length := by rwa [hV] at hi
  refine ⟨hV, ?_, hS, ?_, ?_, rfl⟩
  · rw [hV, hS]
  · exact map_of_mem _ _ hpairs hcov x ((mem_firstSeen xs x).mpr hx) _
  · have hget : (IdHashMap.empty.Update xs).Values.getD i 0 = (firstSeen xs)[i] := by
      rw [hV]
      exact List.getD_eq_getElem (firstSeen xs) 0 hiF
    rw [hget]
    rw [map_of_mem _ _ hpairs hcov _ (List.getElem_mem hiF) _]
    rw [idxOfFirst_getElem (firstSeen xs) i hiF (firstSeen_nodup xs)]

/-- C8 witness: the end-to-end scenario `[5, 3, 5, 9, 3]` with `x = 9`
(first-appearance index 2), `i = 2`, and the vectorized query `[9, 3, 5]`. -/
theorem idHashMap_compaction_roundtrip_witness :
    (IdHashMap.empty.Update [5, 3, 5, 9, 3]).Values = firstSeen [5, 3, 5, 9, 3]
  ∧ (IdHashMap.empty.Update [5, 3, 5, 9, 3]).Values.length =
      (IdHashMap.empty.Update [5, 3, 5, 9, 3]).Size
  ∧ (IdHashMap.empty.Update [5, 3, 5, 9, 3]).Size = (firstSeen [5, 3, 5, 9, 3]).length
  ∧ (IdHashMap.empty.Update [5, 3, 5, 9, 3]).Map 9 (-1) =
      Int.ofNat (idxOfFirst (firstSeen [5, 3, 5, 9, 3]) 9)
  ∧ (IdHashMap.empty.Update [5, 3, 5, 9, 3]).Map
      ((IdHashMap.empty.Update [5, 3, 5, 9, 3]).Values.getD 2 0) (-1) = Int.ofNat 2
  ∧ (IdHashMap.empty.Update [5, 3, 5, 9, 3]).MapArr [9, 3, 5] (-1)
      = [9, 3, 5].map (fun y => (IdHashMap.empty.Update [5, 3, 5, 9, 3]).Map y (-1)) :=
  idHashMap_compaction_roundtrip [5, 3, 5, 9, 3] [9, 3, 5] (-1) 9 2
    (by decide) (by decide)
